import Mathlib

/-!
Verification of the han-parse repository: a shallow embedding, in Lean 4, of
the table data model, the legacy record-stream table reader
(`han_parser.parse_tables`), the modern XML table reader
(`hwpx_parser.parse_hwpx` and helpers), the two surgical table editors
(`hwpx_parser.save_hwpx_with_tables`, regex tier, and
`save_hwpx_with_tables_lxml`, lxml tier) and the directed cell edit
(`table_reconstructor.edit_table_data`).  Python strings are modelled as
`List Char`, Python lists as Lean lists, Python `int` indices as `Int`
where negative indices matter, and the regular-expression scans of the
regex tier are modelled by explicit leftmost-match scanners that realise
the exact semantics of the concrete patterns used by the source.
-/

set_option maxRecDepth 100000

namespace HanParse

/-! ### Generic scanning utilities (model of `re` on the concrete patterns) -/

/-- `chStarts pat s` : does `pat` occur as a prefix of `s`?
(model of anchored literal matching). -/
def chStarts : List Char → List Char → Bool
  | [], _ => true
  | _ :: _, [] => false
  | p :: ps, c :: cs => p == c && chStarts ps cs

/-- Leftmost index at which `pat` occurs in `s` (model of `str.find` /
the scan performed by `re` for a literal head). -/
def findSub (pat : List Char) : List Char → Option Nat
  | [] => if pat.isEmpty then some 0 else none
  | c :: rest =>
    if chStarts pat (c :: rest) then some 0
    else (findSub pat rest).map (· + 1)

/-- Python slice `s[a:b]` for `0 ≤ a ≤ b` (the only shapes the source uses). -/
def sliceL (s : List Char) (a b : Nat) : List Char := (s.drop a).take (b - a)

@[simp] theorem chStarts_nil (s : List Char) : chStarts [] s = true := by
  cases s <;> rfl

theorem chStarts_append (pat s : List Char) :
    chStarts pat (pat ++ s) = true := by
  induction pat with
  | nil => simp [chStarts]
  | cons p ps ih => simp [chStarts, ih]

theorem chStarts_iff (pat s : List Char) :
    chStarts pat s = true ↔ ∃ t, s = pat ++ t := by
  constructor
  · intro h
    induction pat generalizing s with
    | nil => exact ⟨s, rfl⟩
    | cons p ps ih =>
      cases s with
      | nil => simp [chStarts] at h
      | cons c cs =>
        simp only [chStarts, Bool.and_eq_true, beq_iff_eq] at h
        obtain ⟨t, ht⟩ := ih cs h.2
        exact ⟨t, by simp [h.1, ht]⟩
  · rintro ⟨t, rfl⟩
    exact chStarts_append pat t

theorem findSub_nil (s : List Char) : findSub [] s = some 0 := by
  cases s <;> simp [findSub, chStarts]

theorem findSub_append (pat s : List Char) :
    findSub pat (pat ++ s) = some 0 := by
  cases pat with
  | nil => simpa using findSub_nil s
  | cons p ps =>
    have h := chStarts_append (p :: ps) s
    simp only [List.cons_append, findSub]
    rw [show (p :: ps) ++ s = p :: (ps ++ s) from rfl] at h
    simp [h]

/-! ### The table data model -/

/-- A table dictionary as consumed by the surgical editors: only the
`'rows'` key is read (`table_data.get('rows', [])`). -/
structure TableData where
  rows : List (List String)
  deriving Repr, DecidableEq

/-- A table dictionary as stored in the JSON interchange file and consumed by
`table_reconstructor.edit_table_data`: the function reads and mutates only
`'rows'` but the file also carries `row_count` and `col_count` fields,
which the function never touches. -/
structure JTable where
  rows : List (List String)
  row_count : Int
  col_count : Int
  deriving Repr, DecidableEq

/-! ### `table_reconstructor.edit_table_data` -/

/-- Resolution of a Python list index `i` against a list of length `n`:
`some j` with the effective position, or `none` for an `IndexError`. -/
def pyIdx (n : Nat) (i : Int) : Option Nat :=
  if 0 ≤ i ∧ i < (n : Int) then some i.toNat
  else if i < 0 ∧ 0 ≤ i + (n : Int) then some (i + (n : Int)).toNat
  else none

/-- Outcome of `edit_table_data`:  `ok` with the new table list (the JSON
file is rewritten), `oorTable`/`oorRow` for the two printed out-of-range
reports (function returns `False`, file untouched), `crash` for an
uncaught Python `IndexError` (file untouched). -/
inductive EditResult where
  | ok (tables : List JTable)
  | oorTable
  | oorRow
  | crash
  deriving Repr, DecidableEq

/-- Number of `''` cells appended by the loop
`while len(rows[row]) <= col: rows[row].append('')`. -/
def padCount (col : Int) (len : Nat) : Nat :=
  if (len : Int) ≤ col then (col + 1 - (len : Int)).toNat else 0

/-- Model of `table_reconstructor.edit_table_data` (the in-memory part:
JSON load/store is the collaborator layer).  Faithful to the source:
`if table_index >= len(tables)` and `if row >= len(rows)` are the only
guarded checks; Python negative indexing applies everywhere else; the
column is never bounds-checked, only extended. -/
def edit_table_data (tables : List JTable) (tableIndex row col : Int)
    (newValue : String) : EditResult :=
  if tableIndex ≥ (tables.length : Int) then .oorTable
  else
    (pyIdx tables.length tableIndex).elim .crash fun ti =>
      let t := tables.getD ti ⟨[], 0, 0⟩
      let rows := t.rows
      if row ≥ (rows.length : Int) then .oorRow
      else
        (pyIdx rows.length row).elim .crash fun ri =>
          let theRow := rows.getD ri []
          let extended := theRow ++ List.replicate (padCount col theRow.length) ""
          (pyIdx extended.length col).elim .crash fun ci =>
            .ok (tables.set ti { t with rows := rows.set ri (extended.set ci newValue) })

theorem pyIdx_nonneg {n : Nat} {i : Int} (h1 : 0 ≤ i) (h2 : i < (n : Int)) :
    pyIdx n i = some i.toNat := by
  simp [pyIdx, h1, h2]

theorem pyIdx_negIdx {n : Nat} {i : Int} (h1 : i < 0) (h2 : 0 ≤ i + (n : Int)) :
    pyIdx n i = some (i + (n : Int)).toNat := by
  simp [pyIdx, h1, h2]

/-- Does an `EditResult` correspond to one of the two printed
out-of-range reports of `edit_table_data`? -/
def reportsOutOfRange : EditResult → Bool
  | .oorTable => true
  | .oorRow => true
  | _ => false

theorem set_append_singleton {α : Type} (xs : List α) (x v : α) :
    (xs ++ [x]).set xs.length v = xs ++ [v] := by
  induction xs with
  | nil => rfl
  | cons y ys ih => simp [List.set, ih]

/-- C7 (counterexample): `set_cell(0, 0, 5, "v")` on a single stored 1×3 grid
does extend row 0 to `["a","b","c","","","v"]`, but the stored `col_count`
field is left at its prior value 3 — it is not recomputed to 6 as the claim
states (`edit_table_data` never touches `row_count`/`col_count`). -/
theorem c7_counterexample :
    edit_table_data [⟨[["a", "b", "c"]], 1, 3⟩] 0 0 5 "v"
      = .ok [⟨[["a", "b", "c", "", "", "v"]], 1, 3⟩] ∧
    (JTable.mk [["a", "b", "c", "", "", "v"]] 1 3).col_count ≠ 6 := by
  constructor
  · decide
  · decide

/-- C7 (amended): for every cell contents, every replacement value and every
stored `row_count`/`col_count` pair, the directed edit at row 0, column 5 of
a grid whose row 0 has length 3 extends row 0 to length 6, setting indices
3 and 4 to the empty string and index 5 to the value; the stored
`row_count` and `col_count` fields are carried over unchanged (they are
never recomputed). -/
theorem c7_column_auto_extension (a b c v : String) (rc cc : Int) :
    edit_table_data [⟨[[a, b, c]], rc, cc⟩] 0 0 5 v
      = .ok [⟨[[a, b, c, "", "", v]], rc, cc⟩] := rfl

/-- C8: for non-negative indices, `edit_table_data` reports out of range
(and leaves the table list untouched — the failure constructors carry no
new state and the JSON file is only rewritten in the `ok` case) exactly
when the table index is at least the number of loaded tables or the row
index is at least the number of rows of the addressed table; it never
fails for column overflow: when the column is at least the current row
length, the row is extended with empty-string cells and the value is
written at the requested column. -/
theorem c8_edit_out_of_range (tables : List JTable) (ti row col : Int)
    (v : String) (hti : 0 ≤ ti) (hrow : 0 ≤ row) (hcol : 0 ≤ col) :
    (reportsOutOfRange (edit_table_data tables ti row col v) = true ↔
      (tables.length : Int) ≤ ti ∨
        (ti < (tables.length : Int) ∧
          (((tables.getD ti.toNat ⟨[], 0, 0⟩).rows.length : Int) ≤ row))) ∧
    (∀ t r, ti < (tables.length : Int) →
      tables.getD ti.toNat ⟨[], 0, 0⟩ = t →
      row < (t.rows.length : Int) →
      t.rows.getD row.toNat [] = r →
      (r.length : Int) ≤ col →
      edit_table_data tables ti row col v =
        .ok (tables.set ti.toNat { t with rows := (t.rows.set row.toNat
          (r ++ List.replicate (col - (r.length : Int)).toNat "" ++ [v])) })) := by
  constructor
  · simp only [edit_table_data]
    split
    · rename_i hA
      simp only [reportsOutOfRange]
      exact ⟨fun _ => Or.inl (by omega), fun _ => trivial⟩
    · rename_i hA
      rw [pyIdx_nonneg hti (by omega)]
      simp only [Option.elim]
      split
      · rename_i hB
        simp only [reportsOutOfRange]
        exact ⟨fun _ => Or.inr ⟨by omega, by omega⟩, fun _ => trivial⟩
      · rename_i hB
        rw [pyIdx_nonneg hrow (by omega)]
        simp only [Option.elim]
        have hext : col <
            ((((tables.getD ti.toNat ⟨[], 0, 0⟩).rows.getD row.toNat []) ++
              List.replicate
                (padCount col
                  ((tables.getD ti.toNat ⟨[], 0, 0⟩).rows.getD row.toNat []).length)
                "").length : Int) := by
          simp only [List.length_append, List.length_replicate, padCount]
          split <;> push_cast <;> omega
        rw [pyIdx_nonneg hcol hext]
        simp only [Option.elim, reportsOutOfRange]
        constructor
        · intro hfalse
          exact absurd hfalse (by simp)
        · intro hrhs
          rcases hrhs with h | ⟨_, h⟩ <;> omega
  · intro t r hlt ht hrlt hr hcol2
    simp only [edit_table_data]
    rw [if_neg (by omega), pyIdx_nonneg hti (by omega)]
    simp only [Option.elim, ht]
    rw [if_neg (by omega), pyIdx_nonneg hrow (by omega)]
    simp only [Option.elim, hr]
    have hpc : padCount col r.length = (col - (r.length : Int)).toNat + 1 := by
      simp only [padCount]
      rw [if_pos hcol2]
      omega
    rw [hpc]
    have hsplit : r ++ List.replicate ((col - (r.length : Int)).toNat + 1) ""
        = (r ++ List.replicate (col - (r.length : Int)).toNat "") ++ [""] := by
      rw [List.replicate_succ']
      simp
    rw [hsplit]
    have hlen : (((r ++ List.replicate (col - (r.length : Int)).toNat "") ++
        [""]).length : Int) = col + 1 := by
      simp
      omega
    rw [pyIdx_nonneg hcol (by omega)]
    simp only [Option.elim]
    have hcolpos : col.toNat
        = (r ++ List.replicate (col - (r.length : Int)).toNat "").length := by
      simp
      omega
    rw [hcolpos, set_append_singleton]

/-- Witness for C8 at a concrete input: one loaded 1×1 table, edit at
table 0, row 0, column 2 — no out-of-range report, and the row is extended
with one empty cell before the value is written at column 2. -/
theorem c8_edit_out_of_range_witness :
    reportsOutOfRange (edit_table_data [⟨[["a"]], 1, 1⟩] 0 0 2 "xy") = false ∧
    edit_table_data [⟨[["a"]], 1, 1⟩] 0 0 2 "xy"
      = .ok [⟨[["a", "", "xy"]], 1, 1⟩] := by
  have h := c8_edit_out_of_range [⟨[["a"]], 1, 1⟩] 0 0 2 "xy"
    (by decide) (by decide) (by decide)
  constructor
  · cases hb : reportsOutOfRange (edit_table_data [⟨[["a"]], 1, 1⟩] 0 0 2 "xy") with
    | false => rfl
    | true => exact absurd (h.1.mp hb) (by decide)
  · exact h.2 ⟨[["a"]], 1, 1⟩ ["a"] (by decide) rfl (by decide) rfl (by decide)

/-- C10: `edit_table_data` accepts negative row and column indices without
reporting out of range: on a table with at least one row, `row = -1` passes
the `row >= len(rows)` check and addresses the last row; a negative column
whose magnitude is at most that row's length makes the extension loop run
zero times (the row keeps its length) and overwrites the existing cell at
position `len(row) + col`, counted from the end. -/
theorem c10_negative_indices (tables : List JTable) (ti col : Int)
    (v : String) (t : JTable) (r : List String)
    (hti0 : 0 ≤ ti) (htil : ti < (tables.length : Int))
    (ht : tables.getD ti.toNat ⟨[], 0, 0⟩ = t)
    (hrows : t.rows ≠ [])
    (hr : t.rows.getD (t.rows.length - 1) [] = r)
    (hc1 : -(r.length : Int) ≤ col) (hc2 : col < 0) :
    edit_table_data tables ti (-1) col v =
      .ok (tables.set ti.toNat { t with rows := (t.rows.set (t.rows.length - 1)
        (r.set (col + (r.length : Int)).toNat v)) }) ∧
    (r.set (col + (r.length : Int)).toNat v).length = r.length := by
  have hlen : 1 ≤ t.rows.length := by
    cases h : t.rows with
    | nil => exact absurd h hrows
    | cons a l => simp [h]
  constructor
  · simp only [edit_table_data]
    rw [if_neg (by omega), pyIdx_nonneg hti0 (by omega)]
    simp only [Option.elim, ht]
    rw [if_neg (by omega), pyIdx_negIdx (by omega) (by omega)]
    simp only [Option.elim]
    have hidx : ((-1 : Int) + (t.rows.length : Int)).toNat = t.rows.length - 1 := by
      omega
    rw [hidx, hr]
    have hpad : padCount col r.length = 0 := by
      simp only [padCount]
      rw [if_neg (by omega)]
    rw [hpad]
    simp only [List.replicate_zero, List.append_nil]
    rw [pyIdx_negIdx hc2 (by omega)]
  · simp

/-- Witness for C10 at a concrete input: a 2×2 table, edit at row `-1`,
column `-2` overwrites the first cell of the last row. -/
theorem c10_negative_indices_witness :
    edit_table_data [⟨[["p", "q"], ["x", "y"]], 2, 2⟩] 0 (-1) (-2) "N"
      = .ok [⟨[["p", "q"], ["N", "y"]], 2, 2⟩] ∧
    ((["x", "y"] : List String).set ((-2 : Int) + 2).toNat "N").length = 2 := by
  have h := c10_negative_indices [⟨[["p", "q"], ["x", "y"]], 2, 2⟩] 0 (-2) "N"
    ⟨[["p", "q"], ["x", "y"]], 2, 2⟩ ["x", "y"] (by decide) (by decide) rfl
    (by decide) rfl (by decide) (by decide)
  exact ⟨h.1, h.2⟩

/-! ### Legacy reader: `han_parser.parse_tables` on one section's record
stream.  The external structural decoder (hwp5) delivers typed models in
document order; `parse_tables` folds them left-to-right with mutable
"current pending table" state. -/

/-- One typed record of the decoded stream, as discriminated by
`parse_tables` ('TableControl' / 'TableBody' / 'TableCell' / 'ParaText'
in `str(model_type)`; every other model type is ignored by the fold). -/
inductive HRecord where
  | tableControl
  | tableBody (rows cols : Nat)
  | tableCell (row col : Nat)
  | paraText (chunks : List String)
  | other
  deriving Repr, DecidableEq

/-- One entry of `current_cells_data`. -/
structure PendCell where
  row : Nat
  col : Nat
  text : String
  deriving Repr, DecidableEq

/-- A table dictionary produced by the legacy reader
(`_build_table_from_cells`). -/
structure LTable where
  sectionIdx : Nat
  rows : List (List String)
  row_count : Nat
  col_count : Nat
  deriving Repr, DecidableEq

/-- `table_rows[row_idx][col_idx] = text` (bounds already checked by the
caller). -/
def setCellAt (g : List (List String)) (r c : Nat) (v : String) :
    List (List String) :=
  g.set r ((g.getD r []).set c v)

/-- Model of `han_parser._build_table_from_cells`: allocate a
`rows × cols` grid of empty strings, scatter each pending cell inside the
declared bounds, discard the table if either declared dimension is 0. -/
def buildTableFromCells (dims : Nat × Nat) (cells : List PendCell)
    (secIdx : Nat) : Option LTable :=
  if dims.1 = 0 ∨ dims.2 = 0 then none
  else
    let init := List.replicate dims.1 (List.replicate dims.2 "")
    let g := cells.foldl (fun acc cell =>
      if cell.row < dims.1 ∧ cell.col < dims.2 then
        setCellAt acc cell.row cell.col cell.text
      else acc) init
    some ⟨secIdx, g, dims.1, dims.2⟩

/-- The per-section mutable state of the fold in `parse_tables`. -/
structure LegState where
  info : Option (Nat × Nat)
  cells : List PendCell
  inTable : Bool
  deriving Repr, DecidableEq

/-- `current_cells_data[-1]['text'] = existing + ''.join(text_parts)`. -/
def appendToLast (cells : List PendCell) (s : String) : List PendCell :=
  match cells with
  | [] => []
  | [c] => [{ c with text := c.text ++ s }]
  | c :: rest => c :: appendToLast rest s

/-- `if current_table_info and current_cells_data:` finalize the pending
table (used both on a new `TableControl` and at stream end). -/
def finalizeLeg (secIdx : Nat) (st : LegState) : List LTable :=
  match st.info, st.cells with
  | some d, c :: cs =>
    match buildTableFromCells d (c :: cs) secIdx with
    | some t => [t]
    | none => []
  | _, _ => []

/-- The fold of `parse_tables` over one section's model stream. -/
def parseTablesAux (secIdx : Nat) (st : LegState) :
    List HRecord → List LTable
  | [] => finalizeLeg secIdx st
  | r :: rs =>
    match r with
    | .tableControl =>
      finalizeLeg secIdx st ++ parseTablesAux secIdx ⟨none, [], true⟩ rs
    | .tableBody rows cols =>
      parseTablesAux secIdx ⟨some (rows, cols), st.cells, st.inTable⟩ rs
    | .tableCell row col =>
      if st.inTable then
        parseTablesAux secIdx ⟨st.info, st.cells ++ [⟨row, col, ""⟩], st.inTable⟩ rs
      else parseTablesAux secIdx st rs
    | .paraText chunks =>
      if chunks ≠ [] ∧ st.cells ≠ [] ∧ st.inTable then
        parseTablesAux secIdx
          ⟨st.info, appendToLast st.cells (String.join chunks), st.inTable⟩ rs
      else parseTablesAux secIdx st rs
    | .other => parseTablesAux secIdx st rs

/-- Model of `han_parser.parse_tables` for one section (the function
iterates sections independently with fresh state and concatenates the
results). -/
def parse_tables (secIdx : Nat) (records : List HRecord) : List LTable :=
  parseTablesAux secIdx ⟨none, [], false⟩ records

/-- `max(len(row) for row in rows)` over a non-empty list (0 on empty). -/
def maxRowLen (rows : List (List String)) : Nat :=
  rows.foldl (fun m r => max m r.length) 0

/-- C5: the legacy fold is deterministic on the given concrete record
sequence: the single extracted grid is exactly `[["A","B"],["C","D"]]`
with `row_count = 2` and `col_count = 2`. -/
theorem c5_legacy_fold_determinism :
    parse_tables 0
      [.tableControl, .tableBody 2 2,
       .tableCell 0 0, .paraText ["A"],
       .tableCell 0 1, .paraText ["B"],
       .tableCell 1 0, .paraText ["C"],
       .tableCell 1 1, .paraText ["D"]]
      = [⟨0, [["A", "B"], ["C", "D"]], 2, 2⟩] := by decide

/-- The full grid-shape invariant claimed in the spec for a produced table:
`row_count == len(rows)`, every row has length exactly `col_count`, and
`col_count == max(len(r) for r in rows)`. -/
def legacyShapeOk (t : LTable) : Prop :=
  t.row_count = t.rows.length ∧ (∀ r ∈ t.rows, r.length = t.col_count) ∧
    t.col_count = maxRowLen t.rows

theorem foldl_max_const (cc : Nat) :
    ∀ (rows : List (List String)) (acc : Nat), (∀ r ∈ rows, r.length = cc) →
      rows.foldl (fun m r => max m r.length) acc
        = if rows.isEmpty then acc else max acc cc
  | [], acc, _ => rfl
  | r :: rs, acc, h => by
    have hr : r.length = cc := h r (List.mem_cons_self r rs)
    have ih := foldl_max_const cc rs (max acc cc)
      (fun x hx => h x (List.mem_cons_of_mem r hx))
    simp only [List.foldl_cons, hr, ih, List.isEmpty_cons]
    cases hrs : rs.isEmpty <;> simp [Nat.max_assoc]

theorem maxRowLen_const {cc : Nat} {rows : List (List String)}
    (hne : rows ≠ []) (h : ∀ r ∈ rows, r.length = cc) :
    maxRowLen rows = cc := by
  unfold maxRowLen
  rw [foldl_max_const cc rows 0 h]
  simp [List.isEmpty_iff, hne]

theorem setCellAt_shape {g : List (List String)} {cc : Nat} (r c : Nat)
    (v : String) (hlen : ∀ row ∈ g, row.length = cc) :
    (setCellAt g r c v).length = g.length ∧
      ∀ row ∈ setCellAt g r c v, row.length = cc := by
  refine ⟨by simp [setCellAt], fun row hrow => ?_⟩
  by_cases hr : r < g.length
  · rcases List.mem_or_eq_of_mem_set hrow with h | h
    · exact hlen row h
    · subst h
      have hg : g.getD r [] = g.get ⟨r, hr⟩ := by
        simp [List.getD_eq_getElem?_getD, List.getElem?_eq_getElem hr]
      rw [List.length_set, hg]
      exact hlen _ (List.get_mem g r hr)
  · unfold setCellAt at hrow
    rw [List.set_eq_of_length_le (by omega)] at hrow
    exact hlen row hrow

/-- The fold of `_build_table_from_cells` over the pending cells preserves
the allocated grid's shape. -/
theorem foldCells_shape (dims : Nat × Nat) :
    ∀ (cells : List PendCell) (g : List (List String)),
      g.length = dims.1 → (∀ r ∈ g, r.length = dims.2) →
      (cells.foldl (fun acc cell =>
        if cell.row < dims.1 ∧ cell.col < dims.2 then
          setCellAt acc cell.row cell.col cell.text
        else acc) g).length = dims.1 ∧
      ∀ r ∈ cells.foldl (fun acc cell =>
        if cell.row < dims.1 ∧ cell.col < dims.2 then
          setCellAt acc cell.row cell.col cell.text
        else acc) g, r.length = dims.2
  | [], g, h1, h2 => ⟨h1, h2⟩
  | cell :: cs, g, h1, h2 => by
    simp only [List.foldl_cons]
    by_cases hc : cell.row < dims.1 ∧ cell.col < dims.2
    · rw [if_pos hc]
      have hs := setCellAt_shape cell.row cell.col cell.text h2
      exact foldCells_shape dims cs _ (by rw [hs.1, h1]) hs.2
    · rw [if_neg hc]
      exact foldCells_shape dims cs g h1 h2

theorem buildTableFromCells_shape {dims : Nat × Nat} {cells : List PendCell}
    {secIdx : Nat} {t : LTable}
    (h : buildTableFromCells dims cells secIdx = some t) :
    legacyShapeOk t ∧ t.rows ≠ [] := by
  unfold buildTableFromCells at h
  by_cases hz : dims.1 = 0 ∨ dims.2 = 0
  · rw [if_pos hz] at h
    cases h
  · rw [if_neg hz] at h
    push_neg at hz
    have hinit2 : ∀ r ∈ List.replicate dims.1 (List.replicate dims.2 ""),
        r.length = dims.2 := by
      intro r hr
      rw [List.eq_of_mem_replicate hr]
      simp
    have hf := foldCells_shape dims cells
      (List.replicate dims.1 (List.replicate dims.2 "")) (by simp) hinit2
    obtain rfl := Option.some_inj.mp h
    have hne : (cells.foldl (fun acc cell =>
        if cell.row < dims.1 ∧ cell.col < dims.2 then
          setCellAt acc cell.row cell.col cell.text
        else acc) (List.replicate dims.1 (List.replicate dims.2 ""))) ≠ [] := by
      intro hcon
      rw [hcon] at hf
      simp at hf
      omega
    exact ⟨⟨hf.1.symm, hf.2, (maxRowLen_const hne hf.2).symm⟩, hne⟩

theorem finalizeLeg_shape (secIdx : Nat) (st : LegState) :
    ∀ t ∈ finalizeLeg secIdx st, legacyShapeOk t := by
  intro t ht
  unfold finalizeLeg at ht
  rcases hinfo : st.info with _ | d <;> rcases hcells : st.cells with _ | ⟨c, cs⟩ <;>
    rw [hinfo, hcells] at ht <;> try simp at ht
  rcases hb : buildTableFromCells d (c :: cs) secIdx with _ | t' <;> rw [hb] at ht
  · simp at ht
  · simp at ht
    subst ht
    exact (buildTableFromCells_shape hb).1

theorem parseTablesAux_shape (secIdx : Nat) :
    ∀ (recs : List HRecord) (st : LegState) (t : LTable),
      t ∈ parseTablesAux secIdx st recs → legacyShapeOk t
  | [], st, t, ht => finalizeLeg_shape secIdx st t ht
  | r :: rs, st, t, ht => by
    cases r with
    | tableControl =>
      simp only [parseTablesAux] at ht
      rcases List.mem_append.mp ht with h | h
      · exact finalizeLeg_shape secIdx st t h
      · exact parseTablesAux_shape secIdx rs _ t h
    | tableBody rows cols =>
      simp only [parseTablesAux] at ht
      exact parseTablesAux_shape secIdx rs _ t ht
    | tableCell row col =>
      simp only [parseTablesAux] at ht
      split at ht <;> exact parseTablesAux_shape secIdx rs _ t ht
    | paraText chunks =>
      simp only [parseTablesAux] at ht
      split at ht <;> exact parseTablesAux_shape secIdx rs _ t ht
    | other =>
      simp only [parseTablesAux] at ht
      exact parseTablesAux_shape secIdx rs _ t ht

/-! ### Modern reader: `hwpx_parser` on a parsed section tag tree.
`xml.etree.ElementTree` elements carry a tag, attributes, an optional text
node and a children list; `elem.iter()` is self-then-descendants preorder
(document order). -/

/-- A parsed XML element. -/
inductive Xml where
  | el (tag : String) (attrs : List (String × String)) (text : Option String)
      (children : List Xml)

def Xml.tagOf : Xml → String
  | .el t _ _ _ => t

def Xml.attrsOf : Xml → List (String × String)
  | .el _ a _ _ => a

def Xml.textOf : Xml → Option String
  | .el _ _ tx _ => tx

def Xml.childrenOf : Xml → List Xml
  | .el _ _ _ cs => cs

mutual

/-- `elem.iter()`: the element followed by all descendants, preorder. -/
def iterEls : Xml → List Xml
  | .el t a tx cs => .el t a tx cs :: iterChildren cs

def iterChildren : List Xml → List Xml
  | [] => []
  | c :: cs => iterEls c ++ iterChildren cs

end

/-- `s.endswith(suffix)` (kernel-evaluable model of `str.endswith`). -/
def chEnds (suf s : List Char) : Bool := chStarts suf.reverse s.reverse

/-- `elem.tag.endswith('}X') or elem.tag == 'X'` — the namespace-agnostic
local-name test used throughout `hwpx_parser`. -/
def tagIs (localName : String) (e : Xml) : Bool :=
  chEnds ("\x7d" ++ localName).data e.tagOf.data || e.tagOf == localName

/-- Model of `hwpx_parser._extract_cell_text`: concatenate the text of
every `t`-tagged element in the cell's subtree, in document order. -/
def extract_cell_text (tc : Xml) : String :=
  String.join ((iterEls tc).filterMap fun e =>
    if tagIs "t" e then e.textOf else none)

/-- Decimal digit value. -/
def digitVal (c : Char) : Option Nat :=
  if '0' ≤ c ∧ c ≤ '9' then some (c.toNat - '0'.toNat) else none

/-- Parse an unsigned decimal numeral. -/
def parsePosDigits (cs : List Char) : Option Nat :=
  match cs with
  | [] => none
  | _ =>
    cs.foldl (fun acc c =>
      match acc, digitVal c with
      | some n, some d => some (n * 10 + d)
      | _, _ => none) (some 0)

/-- Model of Python `int(...)` on attribute strings. -/
def pyInt (s : String) : Option Int :=
  match s.data with
  | '-' :: rest => (parsePosDigits rest).map (fun n => -(n : Int))
  | cs => (parsePosDigits cs).map (fun n => (n : Int))

/-- `int(child.get(key, 1))` where `child.get` returns an attribute
string (a malformed integer, which raises in Python, is not modelled —
no claim touches one). -/
def attrIntD (attrs : List (String × String)) (key : String) : Int :=
  match attrs.lookup key with
  | none => 1
  | some s => (pyInt s).getD 0

/-- Cell detail recorded by `_parse_table_element` (merge metadata from
the first descendant `cellSpan` element). -/
structure CellInfo where
  text : String
  row : Nat
  col : Nat
  colspan : Int
  rowspan : Int
  deriving Repr, DecidableEq

/-- The colspan/rowspan of a cell: first `cellSpan`-tagged descendant,
defaults `(1, 1)`. -/
def cellSpanOf (tc : Xml) : Int × Int :=
  match (iterEls tc).find? (fun e => chEnds "\x7dcellSpan".data e.tagOf.data) with
  | none => (1, 1)
  | some e => (attrIntD e.attrsOf "colSpan", attrIntD e.attrsOf "rowSpan")

/-- A table dictionary produced by `_parse_table_element`. -/
structure MTable where
  rows : List (List String)
  cells : List (List CellInfo)
  row_count : Nat
  col_count : Nat
  deriving Repr, DecidableEq

/-- The body of the `for tr in tbl.iter()` loop: a row is appended only
when it contains at least one `tc`; `row_idx` equals the number of rows
appended so far. -/
def parseTrStep (acc : List (List String) × List (List CellInfo)) (tr : Xml) :
    List (List String) × List (List CellInfo) :=
  let tcs := (iterEls tr).filter (tagIs "tc")
  if tcs.isEmpty then acc
  else
    let rowIdx := acc.1.length
    let rowCells := tcs.map extract_cell_text
    let rowInfo := tcs.enum.map fun colTc =>
      { text := extract_cell_text colTc.2, row := rowIdx, col := colTc.1,
        colspan := (cellSpanOf colTc.2).1, rowspan := (cellSpanOf colTc.2).2 :
        CellInfo }
    (acc.1 ++ [rowCells], acc.2 ++ [rowInfo])

/-- Model of `hwpx_parser._parse_table_element`. -/
def parse_table_element (tbl : Xml) : MTable :=
  let trs := (iterEls tbl).filter (tagIs "tr")
  let built := trs.foldl parseTrStep ([], [])
  { rows := built.1, cells := built.2, row_count := built.1.length,
    col_count := maxRowLen built.1 }

/-- Model of `hwpx_parser._extract_tables_from_xml`: every `tbl`-tagged
element of the tree yields a table; tables with no rows are dropped. -/
def extract_tables_from_xml (root : Xml) : List MTable :=
  (((iterEls root).filter (tagIs "tbl")).map parse_table_element).filter
    fun td => !td.rows.isEmpty

/-- A cell carrying one text element — building block for concrete trees. -/
def tcLeaf (s : String) : Xml := .el "tc" [] none [.el "t" [] (some s) []]

/-- A section tree with one table whose two rows have 2 and 1 cells:
the modern reader does not normalize ragged rows. -/
def raggedRoot : Xml :=
  .el "sec" [] none [
    .el "tbl" [] none [
      .el "tr" [] none [tcLeaf "a", tcLeaf "b"],
      .el "tr" [] none [tcLeaf "c"]]]

/-- C3 (counterexample): the modern reader, on a table whose second row has
fewer cells, produces a grid with `col_count = 2` whose second row has
length 1 — rows are NOT normalized to uniform width, refuting the claim
that every row has length exactly `col_count`. -/
theorem c3_counterexample :
    (extract_tables_from_xml raggedRoot).map
        (fun t => (t.row_count, t.col_count, t.rows))
      = [(2, 2, [["a", "b"], ["c"]])] ∧
    ¬ (∀ t ∈ extract_tables_from_xml raggedRoot,
        ∀ r ∈ t.rows, r.length = t.col_count) := by
  constructor
  · decide
  · decide

/-- C3 (amended): every `TableGrid` produced by the legacy reader satisfies
the full invariant — `row_count = len(rows)`, every row has length exactly
`col_count`, and `col_count = max(len(r))` — while every grid produced by
the modern reader satisfies `row_count = len(rows)` and
`col_count = max(len(r) for r in rows)` but its individual rows keep their
parsed lengths (no normalization to uniform width). -/
theorem c3_grid_shape_invariant :
    (∀ (secIdx : Nat) (records : List HRecord) (t : LTable),
        t ∈ parse_tables secIdx records →
        t.row_count = t.rows.length ∧ (∀ r ∈ t.rows, r.length = t.col_count) ∧
          t.col_count = maxRowLen t.rows) ∧
    (∀ (root : Xml) (t : MTable), t ∈ extract_tables_from_xml root →
        t.row_count = t.rows.length ∧ t.col_count = maxRowLen t.rows) := by
  constructor
  · intro secIdx records t ht
    exact parseTablesAux_shape secIdx records _ t ht
  · intro root t ht
    unfold extract_tables_from_xml at ht
    rcases List.mem_filter.mp ht with ⟨hmem, -⟩
    rcases List.mem_map.mp hmem with ⟨tbl, -, rfl⟩
    exact ⟨rfl, rfl⟩

/-- Witness for C3 at a concrete input: the 2×2 legacy grid extracted in
the C5 scenario satisfies the full shape invariant. -/
theorem c3_grid_shape_invariant_witness :
    (⟨0, [["A", "B"], ["C", "D"]], 2, 2⟩ : LTable) ∈ parse_tables 0
      [.tableControl, .tableBody 2 2, .tableCell 0 0, .paraText ["A"],
       .tableCell 0 1, .paraText ["B"], .tableCell 1 0, .paraText ["C"],
       .tableCell 1 1, .paraText ["D"]] ∧
    ((⟨0, [["A", "B"], ["C", "D"]], 2, 2⟩ : LTable).row_count
        = (⟨0, [["A", "B"], ["C", "D"]], 2, 2⟩ : LTable).rows.length ∧
      (∀ r ∈ (⟨0, [["A", "B"], ["C", "D"]], 2, 2⟩ : LTable).rows,
        r.length = (⟨0, [["A", "B"], ["C", "D"]], 2, 2⟩ : LTable).col_count) ∧
      (⟨0, [["A", "B"], ["C", "D"]], 2, 2⟩ : LTable).col_count
        = maxRowLen (⟨0, [["A", "B"], ["C", "D"]], 2, 2⟩ : LTable).rows) :=
  ⟨by decide, c3_grid_shape_invariant.1 0
    [.tableControl, .tableBody 2 2, .tableCell 0 0, .paraText ["A"],
     .tableCell 0 1, .paraText ["B"], .tableCell 1 0, .paraText ["C"],
     .tableCell 1 1, .paraText ["D"]] _ (by decide)⟩

/-! ### Constrained (regex) tier: `hwpx_parser._modify_tables_with_regex`
and helpers.  The concrete patterns are
`(<hp:tbl[^>]*>)(.*?)(</hp:tbl>)`, `(<hp:tr[^>]*>)(.*?)(</hp:tr>)`,
`(<hp:tc[^>]*>)(.*?)(</hp:tc>)` (DOTALL, `finditer`),
`(<hp:t>)(.*?)(</hp:t>)`, `(<hp:run[^>]*)(/\s*>)` and
`(<hp:run[^>]*>)(</hp:run>)` (`subn`, `count=1`).  For each of them,
`re`'s leftmost-then-lazy semantics reduces to: take the leftmost
occurrence of the literal head; `[^>]*>` runs to the first `>`;
the lazy `(.*?)` runs to the first occurrence of the closing literal.
If the leftmost head occurrence cannot be completed, no later one can
(any completion after a later head also completes the earlier one), so the
whole pattern has no match. -/

/-- Leftmost match of `(<X[^>]*>)(.*?)(</X>)` at a position `≥ p`:
`some (start, stop)` is the full match span `[start, stop)`. -/
def matchTag (opn cls s : List Char) (p : Nat) : Option (Nat × Nat) :=
  match findSub opn (s.drop p) with
  | none => none
  | some d =>
    let i := p + d
    match findSub ['>'] (s.drop (i + opn.length)) with
    | none => none
    | some dk =>
      let k := i + opn.length + dk
      match findSub cls (s.drop (k + 1)) with
      | none => none
      | some dm => some (i, k + 1 + dm + cls.length)

/-- `re.finditer`: non-overlapping matches, each search resuming at the end
of the previous match (all matches are non-empty, so no `+1` step occurs). -/
def findIterAux (opn cls s : List Char) : Nat → Nat → List (Nat × Nat)
  | 0, _ => []
  | fuel + 1, p =>
    match matchTag opn cls s p with
    | none => []
    | some (a, b) => (a, b) :: findIterAux opn cls s fuel b

def findIter (opn cls s : List Char) : List (Nat × Nat) :=
  findIterAux opn cls s (s.length + 1) 0

/-- `re.subn(r'(<hp:t>)(.*?)(</hp:t>)', repl, s, count=1)`: replace the
first `t` pair's inner text; `none` when the pattern has no match. -/
def replFirstT (s v : List Char) : Option (List Char) :=
  match findSub "<hp:t>".data s with
  | none => none
  | some i =>
    match findSub "</hp:t>".data (s.drop (i + 6)) with
    | none => none
    | some j => some (s.take (i + 6) ++ (v ++ (s.drop (i + 6)).drop j))

/-- Python `\s` on the ASCII range (the only characters that occur in
section XML between a run's `/` and its `>`). -/
def isPySpace (c : Char) : Bool :=
  c = ' ' ∨ c = '\t' ∨ c = '\n' ∨ c = '\r' ∨ c = '\x0b' ∨ c = '\x0c'

/-- Backward scan realising the greedy split of `[^>]*` against `/\s*>`:
from `j` downwards (never below `stop`), skip whitespace and return the
position of the `/`; fails on any other character. -/
def scanBackSlashAux (s : List Char) (stop : Nat) : Nat → Nat → Option Nat
  | 0, _ => none
  | fuel + 1, j =>
    match s.get? j with
    | none => none
    | some c =>
      if stop ≤ j ∧ c = '/' then some j
      else if stop < j ∧ isPySpace c then scanBackSlashAux s stop fuel (j - 1)
      else none

def scanBackSlash (s : List Char) (stop j : Nat) : Option Nat :=
  scanBackSlashAux s stop (j + 1) j

/-- Attempt `(<hp:run[^>]*)(/\s*>)` anchored at `i` (where `<hp:run`
matches): the pattern's final `>` is the first `>` at or after `i + 7`;
the slash is the last `/` before it with only whitespace in between.
Returns `(slashPos, gtPos)`. -/
def testSelfClose (s : List Char) (i : Nat) : Option (Nat × Nat) :=
  match findSub ['>'] (s.drop (i + 7)) with
  | none => none
  | some dk =>
    if dk = 0 then none
    else
      let k := i + 7 + dk
      match scanBackSlash s (i + 7) (k - 1) with
      | none => none
      | some j => some (j, k)

def findSCRunAux (s : List Char) : Nat → Nat → Option (Nat × Nat)
  | 0, _ => none
  | fuel + 1, p =>
    match findSub "<hp:run".data (s.drop p) with
    | none => none
    | some d =>
      match testSelfClose s (p + d) with
      | some jk => some jk
      | none => findSCRunAux s fuel (p + d + 1)

/-- `re.subn(r'(<hp:run[^>]*)(/\s*>)', expand, s, count=1)`: expand the
first self-closing run into `group1 + '><hp:t>' + v + '</hp:t></hp:run>'`. -/
def replSelfClosingRun (s v : List Char) : Option (List Char) :=
  match findSCRunAux s (s.length + 1) 0 with
  | none => none
  | some (j, k) =>
    some (s.take j ++ (">".data ++ ("<hp:t>".data ++ (v
      ++ ("</hp:t></hp:run>".data ++ s.drop (k + 1))))))

/-- Attempt `(<hp:run[^>]*>)(</hp:run>)` anchored at `i`: the group-1 `>`
is the first `>` at or after `i + 7` and `</hp:run>` must follow it
immediately.  Returns the position of that `>`. -/
def testEmptyRun (s : List Char) (i : Nat) : Option Nat :=
  match findSub ['>'] (s.drop (i + 7)) with
  | none => none
  | some dk =>
    let k := i + 7 + dk
    if chStarts "</hp:run>".data (s.drop (k + 1)) then some k else none

def findEmptyRunAux (s : List Char) : Nat → Nat → Option Nat
  | 0, _ => none
  | fuel + 1, p =>
    match findSub "<hp:run".data (s.drop p) with
    | none => none
    | some d =>
      match testEmptyRun s (p + d) with
      | some k => some k
      | none => findEmptyRunAux s fuel (p + d + 1)

/-- `re.subn(r'(<hp:run[^>]*>)(</hp:run>)', addT, s, count=1)`: insert
`<hp:t>v</hp:t>` between the first empty run pair. -/
def replEmptyRun (s v : List Char) : Option (List Char) :=
  match findEmptyRunAux s (s.length + 1) 0 with
  | none => none
  | some k =>
    some (s.take (k + 1) ++ ("<hp:t>".data ++ (v ++ ("</hp:t>".data
      ++ s.drop (k + 1)))))

/-- Model of `hwpx_parser._modify_cell_text_regex`: three cases tried in
order — existing `<hp:t>` pair, self-closing run, empty run pair; the cell
is returned unchanged when none matches. -/
def modify_cell_text_regex (tc v : List Char) : List Char :=
  match replFirstT tc v with
  | some r => r
  | none =>
    match replSelfClosingRun tc v with
    | some r => r
    | none =>
      match replEmptyRun tc v with
      | some r => r
      | none => tc

/-- The cell-splicing loop of `_modify_single_row_regex`: matches were
computed on the original row text; each span is shifted by the running
`offset` before the splice, and the offset accumulates each length change. -/
def spliceCells : List Char → Int → List ((Nat × Nat) × String) → List Char
  | res, _, [] => res
  | res, off, ((a, b), v) :: rest =>
    let s := (off + (a : Int)).toNat
    let e := (off + (b : Int)).toNat
    let seg := sliceL res s e
    let seg2 := modify_cell_text_regex seg v.data
    spliceCells (res.take s ++ (seg2 ++ res.drop e))
      (off + ((seg2.length : Int) - (seg.length : Int))) rest

/-- Model of `hwpx_parser._modify_single_row_regex`. -/
def modify_single_row_regex (trContent : List Char) (rowData : List String) :
    List Char :=
  spliceCells trContent 0
    ((findIter "<hp:tc".data "</hp:tc>".data trContent).zip rowData)

/-- The row-splicing loop of `_modify_single_table_regex` (same running
offset discipline as the cell loop). -/
def spliceRows : List Char → Int → List ((Nat × Nat) × List String) → List Char
  | res, _, [] => res
  | res, off, ((a, b), rowData) :: rest =>
    let s := (off + (a : Int)).toNat
    let e := (off + (b : Int)).toNat
    let seg := sliceL res s e
    let seg2 := modify_single_row_regex seg rowData
    spliceRows (res.take s ++ (seg2 ++ res.drop e))
      (off + ((seg2.length : Int) - (seg.length : Int))) rest

/-- Model of `hwpx_parser._modify_single_table_regex`. -/
def modify_single_table_regex (tblContent : List Char)
    (newRows : List (List String)) : List Char :=
  spliceRows tblContent 0
    ((findIter "<hp:tr".data "</hp:tr>".data tblContent).zip newRows)

/-- The table loop of `_modify_tables_with_regex`.  Faithful to the source:
`match.group(0)` is the table text of the ORIGINAL section string and
`content[:tbl_start] / content[tbl_end:]` reuse the ORIGINAL match offsets
against the already-rewritten string — no offset is maintained at this
level (the comment in the source claims reverse-order processing, but the
loop runs forward). -/
def spliceTables (orig : List Char) : List Char → List ((Nat × Nat) × TableData) → List Char
  | res, [] => res
  | res, ((a, b), td) :: rest =>
    if td.rows.isEmpty then spliceTables orig res rest
    else
      let seg2 := modify_single_table_regex (sliceL orig a b) td.rows
      spliceTables orig (res.take a ++ (seg2 ++ res.drop b)) rest

/-- Model of `hwpx_parser._modify_tables_with_regex`. -/
def modify_tables_with_regex (content : List Char)
    (tablesData : List TableData) : List Char :=
  let ms := findIter "<hp:tbl".data "</hp:tbl>".data content
  if ms.isEmpty then content
  else spliceTables content content (ms.zip tablesData)

/-- Model of `hwpx_parser.save_hwpx_with_tables` on the section contents
(in lexically sorted order): each section is rewritten independently with
the full `tables_data` list. -/
def save_hwpx_with_tables (sections : List (List Char))
    (tablesData : List TableData) : List (List Char) :=
  sections.map fun content =>
    if tablesData.isEmpty then content
    else modify_tables_with_regex content tablesData

/-- C9: the constrained-tier cell splice inserts the replacement value
verbatim, with no XML escaping, in all three cases (existing `t` element,
expanded self-closing run, empty run pair): for EVERY value `v` — in
particular one containing `<` or `&` — the output is literally
`prefix ++ v ++ suffix` with `v`'s characters unchanged between the `t`
tags (the lxml tier's serializer, by contrast, escapes character data;
an unescaped `<` or `&` makes the section XML ill-formed). -/
theorem c9_verbatim_splice_no_escaping (v : List Char) :
    modify_cell_text_regex
        "<hp:tc><hp:run c=\"1\"><hp:t>old</hp:t></hp:run></hp:tc>".data v
      = "<hp:tc><hp:run c=\"1\"><hp:t>".data ++ v
          ++ "</hp:t></hp:run></hp:tc>".data ∧
    modify_cell_text_regex "<hp:tc><hp:run c=\"1\"/></hp:tc>".data v
      = "<hp:tc><hp:run c=\"1\"><hp:t>".data ++ v
          ++ "</hp:t></hp:run></hp:tc>".data ∧
    modify_cell_text_regex "<hp:tc><hp:run></hp:run></hp:tc>".data v
      = "<hp:tc><hp:run><hp:t>".data ++ v
          ++ "</hp:t></hp:run></hp:tc>".data := by
  refine ⟨rfl, rfl, rfl⟩

/-! ### A canonical well-formed single-section archive with one 2×2 table
(for C4), given both as the parsed tag tree (the modern reader's input
after `ET.fromstring`) and as the raw section text (the regex tier's
input) produced by a serializer that mirrors the producing application's
conventions (prefixed tags, no self-closing elements). -/

/-- The paragraph-namespace qualified tag, as `ElementTree`/lxml spell it. -/
def hpTag (localName : String) : String :=
  "{http://www.hancom.co.kr/hwpml/2011/paragraph}" ++ localName

/-- The `NAMESPACES` table of `hwpx_parser`. -/
def nsPrefix (uri : String) : Option String :=
  [("http://www.hancom.co.kr/hwpml/2011/paragraph", "hp"),
   ("http://www.hancom.co.kr/hwpml/2011/section", "hs"),
   ("http://www.hancom.co.kr/hwpml/2011/core", "hc"),
   ("http://www.hancom.co.kr/hwpml/2011/head", "hh"),
   ("http://www.hancom.co.kr/hwpml/2011/owner", "ho"),
   ("http://www.hancom.co.kr/hwpml/2016/paragraph", "hp10")].lookup uri

/-- `{uri}local` → `prefix:local` for the registered namespaces. -/
def qname (tag : String) : String :=
  match tag.data with
  | '{' :: rest =>
    match findSub ['}'] rest with
    | none => tag
    | some j =>
      match nsPrefix (String.mk (rest.take j)) with
      | some p => p ++ ":" ++ String.mk (rest.drop (j + 1))
      | none => tag
  | _ => tag

def renderAttrs : List (String × String) → List Char
  | [] => []
  | (k, v) :: rest =>
    " ".data ++ k.data ++ "=\"".data ++ v.data ++ "\"".data ++ renderAttrs rest

mutual

/-- Serialize a tag tree in the producing application's style: prefixed
tags, attributes in order, never self-closing. -/
def renderXml : Xml → List Char
  | .el tag attrs tx cs =>
    "<".data ++ (qname tag).data ++ renderAttrs attrs ++ ">".data
      ++ (match tx with | some s => s.data | none => [])
      ++ renderChildren cs ++ "</".data ++ (qname tag).data ++ ">".data

def renderChildren : List Xml → List Char
  | [] => []
  | c :: cs => renderXml c ++ renderChildren cs

end

def hpT (s : String) : Xml := .el (hpTag "t") [] (some s) []

def hpRun (s : String) : Xml := .el (hpTag "run") [] none [hpT s]

def hpTc (s : String) : Xml := .el (hpTag "tc") [] none [hpRun s]

def hpTr (a b : String) : Xml := .el (hpTag "tr") [] none [hpTc a, hpTc b]

/-- The canonical section tree: one paragraph holding one 2×2 table with
cell texts x, y / z, w. -/
def c4Sec : Xml :=
  .el "{http://www.hancom.co.kr/hwpml/2011/section}sec"
    [("xmlns:hs", "http://www.hancom.co.kr/hwpml/2011/section"),
     ("xmlns:hp", "http://www.hancom.co.kr/hwpml/2011/paragraph")] none
    [.el (hpTag "p") [] none
      [.el (hpTag "tbl") [] none [hpTr "x" "y", hpTr "z" "w"]]]

/-- `parse_hwpx`: the archive's tables are the concatenation of each
section's tables, in section order. -/
def parse_hwpx_tables (sections : List Xml) : List MTable :=
  (sections.map extract_tables_from_xml).flatten

/-- C4: round trip on unedited input, on the canonical single-section
archive with one 2×2 table `[["x","y"],["z","w"]]`: (1) the modern reader
yields exactly that grid; (2) applying the regex-tier editor with that
same grid as the sole target returns the section text byte-identical to
the input — hence all bytes outside (and inside) the table are unchanged
and re-parsing the output re-yields the same grid by (1). -/
theorem c4_round_trip_unedited :
    (parse_hwpx_tables [c4Sec]).map (fun t => (t.rows, t.row_count, t.col_count))
      = [([["x", "y"], ["z", "w"]], 2, 2)] ∧
    save_hwpx_with_tables [renderXml c4Sec] [⟨[["x", "y"], ["z", "w"]]⟩]
      = [renderXml c4Sec] := by
  exact ⟨by decide, by decide⟩

/-- A section whose text holds two tables, with 4 bytes between them
(C1's failing input). -/
def c1Section : List Char :=
  "AA<hp:tbl><hp:tr><hp:tc><hp:t>a</hp:t></hp:tc></hp:tr></hp:tbl>BBBB<hp:tbl><hp:tr><hp:tc><hp:t>b</hp:t></hp:tc></hp:tr></hp:tbl>CC".data

/-- C1 (code bug): with two tables in one section and a first-table edit
that lengthens it by 3 bytes (`"a"` → `"aaaa"`), the regex tier splices
the second table at its ORIGINAL offsets against the already-lengthened
string: the last 3 bytes of the text between the tables (`BBBB` → `B`)
are destroyed and the last 3 bytes of the second table (`bl>`) are
duplicated after it — the bytes of later tables and of the text between
are NOT preserved, although the second table's own edit is the identity.
(The source's comment claims reverse-order processing precisely to avoid
this, but the loop runs forward with no table-level offset.) -/
theorem c1_stale_offsets_corrupt_later_tables :
    modify_tables_with_regex c1Section [⟨[["aaaa"]]⟩, ⟨[["b"]]⟩]
      = "AA<hp:tbl><hp:tr><hp:tc><hp:t>aaaa</hp:t></hp:tc></hp:tr></hp:tbl>B<hp:tbl><hp:tr><hp:tc><hp:t>b</hp:t></hp:tc></hp:tr></hp:tbl>bl>CC".data ∧
    modify_tables_with_regex c1Section [⟨[["aaaa"]]⟩, ⟨[["b"]]⟩]
      ≠ "AA<hp:tbl><hp:tr><hp:tc><hp:t>aaaa</hp:t></hp:tc></hp:tr></hp:tbl>BBBB<hp:tbl><hp:tr><hp:tc><hp:t>b</hp:t></hp:tc></hp:tr></hp:tbl>CC".data := by
  exact ⟨by decide, by decide⟩

/-! ### Permissive (lxml) tier: `hwpx_parser.save_hwpx_with_tables_lxml`.
`root.xpath('.//hp:X')` selects, in document order, every proper
descendant whose qualified tag is the paragraph-namespace `X`.  The
source mutates the shared tree; the embedding is a functional walk that
edits matching elements in document order, consuming one target per
match (matching the source because a cell-text edit never creates or
removes `tbl`/`tr`/`tc` elements). -/

/-- `.//hp:X` tag test (lxml uses fully qualified `{uri}X` tags). -/
def isHp (localName : String) (e : Xml) : Bool := e.tagOf == hpTag localName

/-- Proper descendants, preorder (= lxml document order for `.//`). -/
def descendants (x : Xml) : List Xml := iterChildren x.childrenOf

/-- Is `xpath('.//…')` non-empty? -/
def existsDesc (p : Xml → Bool) (x : Xml) : Bool := (descendants x).any p

mutual

/-- Rewrite the first proper descendant satisfying `p` (document order)
with `f`; the Bool reports whether a rewrite happened. -/
def editFirstDesc (p : Xml → Bool) (f : Xml → Xml) : Xml → Xml × Bool
  | .el t a tx cs =>
    let r := editFirstDescList p f cs
    (.el t a tx r.1, r.2)

def editFirstDescList (p : Xml → Bool) (f : Xml → Xml) :
    List Xml → List Xml × Bool
  | [] => ([], false)
  | c :: cs =>
    if p c then (f c :: cs, true)
    else
      let r := editFirstDesc p f c
      if r.2 then (r.1 :: cs, true)
      else
        let r2 := editFirstDescList p f cs
        (c :: r2.1, r2.2)

end

mutual

/-- Rewrite the descendants satisfying `p`, in document order, with one
entry of `vals` each; once `vals` is exhausted the loop `break`s and
later matches stay untouched.  (Matched elements are not re-entered: the
section edits never nest matching elements inside matching elements.) -/
def editSeq {α : Type} (p : Xml → Bool) (f : α → Xml → Xml) :
    Xml → List α → Xml × List α
  | .el t a tx cs, vals =>
    let r := editSeqList p f cs vals
    (.el t a tx r.1, r.2)

def editSeqList {α : Type} (p : Xml → Bool) (f : α → Xml → Xml) :
    List Xml → List α → List Xml × List α
  | [], vals => ([], vals)
  | c :: cs, vals =>
    if p c then
      match vals with
      | [] => (c :: cs, [])
      | v :: vs =>
        let r2 := editSeqList p f cs vs
        (f v c :: r2.1, r2.2)
    else
      let r := editSeq p f c vals
      let r2 := editSeqList p f cs r.2
      (r.1 :: r2.1, r2.2)

end

/-- The cell edit of the lxml tier (hwpx_parser.py lines 626-663): set the
first descendant `t`'s text; else append a new `t` child to the first
descendant `run` (an empty/self-closing run is just an element with no
children — appending expands it); else append a fresh `run` holding a
`t` to the cell. -/
def lxmlSetCellText (tc : Xml) (v : String) : Xml :=
  if existsDesc (isHp "t") tc then
    (editFirstDesc (isHp "t")
      (fun e => .el e.tagOf e.attrsOf (some v) e.childrenOf) tc).1
  else if existsDesc (isHp "run") tc then
    (editFirstDesc (isHp "run")
      (fun e => .el e.tagOf e.attrsOf e.textOf
        (e.childrenOf ++ [.el (hpTag "t") [] (some v) []])) tc).1
  else
    .el tc.tagOf tc.attrsOf tc.textOf
      (tc.childrenOf ++ [.el (hpTag "run") [] none [.el (hpTag "t") [] (some v) []]])

/-- The `for col_idx, tc in enumerate(cells)` loop over one row. -/
def lxmlEditRow (rowData : List String) (tr : Xml) : Xml :=
  (editSeq (isHp "tc") (fun v tc => lxmlSetCellText tc v) tr rowData).1

/-- The `for row_idx, tr in enumerate(rows)` loop over one table
(`continue` on an empty target grid still consumes the table index). -/
def lxmlEditTable (td : TableData) (tbl : Xml) : Xml :=
  if td.rows.isEmpty then tbl
  else (editSeq (isHp "tr") lxmlEditRow tbl td.rows).1

/-- One section of `save_hwpx_with_tables_lxml`: the per-section table
loop starts again from `tables_data[0]`. -/
def lxml_edit_section (root : Xml) (tablesData : List TableData) : Xml :=
  if tablesData.isEmpty then root
  else (editSeq (isHp "tbl") lxmlEditTable root tablesData).1

/-- Model of `save_hwpx_with_tables_lxml` on the parsed section trees. -/
def save_hwpx_with_tables_lxml (sections : List Xml)
    (tablesData : List TableData) : List Xml :=
  sections.map fun root => lxml_edit_section root tablesData

/-! ### C2: matching policy across sections -/

def c2Sec1 : List Char :=
  "<hs:sec><hp:tbl><hp:tr><hp:tc><hp:t>a1</hp:t></hp:tc></hp:tr></hp:tbl></hs:sec>".data

def c2Sec2 : List Char :=
  "<hs:sec><hp:tbl><hp:tr><hp:tc><hp:t>b1</hp:t></hp:tc></hp:tr></hp:tbl></hs:sec>".data

/-- A section tree holding one single-cell table with text `s`. -/
def oneTbl (s : String) : Xml :=
  .el (hpTag "tbl") [] none
    [.el (hpTag "tr") [] none
      [.el (hpTag "tc") [] none
        [.el (hpTag "run") [] none [.el (hpTag "t") [] (some s) []]]]]

/-- A section tree holding two single-cell tables. -/
def secTwoTbl (s t : String) : Xml :=
  .el "{http://www.hancom.co.kr/hwpml/2011/section}sec" [] none
    [oneTbl s, oneTbl t]

/-- C2 (counterexample): on a two-section archive with one table per
section and targets `[[["P"]], [["Q"]]]`, the regex tier gives the SECOND
section's table the text `"P"` — entry 0, not entry 1 as the claim's
global numbering predicts; likewise the lxml tier on two sections of two
tables each with targets `A,B,C,D` rewrites BOTH sections' tables to
`A,B` (the third table of the archive receives entry 0, not entry 2). -/
theorem c2_counterexample :
    (save_hwpx_with_tables [c2Sec1, c2Sec2] [⟨[["P"]]⟩, ⟨[["Q"]]⟩]
      = ["<hs:sec><hp:tbl><hp:tr><hp:tc><hp:t>P</hp:t></hp:tc></hp:tr></hp:tbl></hs:sec>".data,
         "<hs:sec><hp:tbl><hp:tr><hp:tc><hp:t>P</hp:t></hp:tc></hp:tr></hp:tbl></hs:sec>".data] ∧
     save_hwpx_with_tables [c2Sec1, c2Sec2] [⟨[["P"]]⟩, ⟨[["Q"]]⟩]
      ≠ ["<hs:sec><hp:tbl><hp:tr><hp:tc><hp:t>P</hp:t></hp:tc></hp:tr></hp:tbl></hs:sec>".data,
         "<hs:sec><hp:tbl><hp:tr><hp:tc><hp:t>Q</hp:t></hp:tc></hp:tr></hp:tbl></hs:sec>".data]) ∧
    ((save_hwpx_with_tables_lxml [secTwoTbl "t1" "t2", secTwoTbl "t3" "t4"]
        [⟨[["A"]]⟩, ⟨[["B"]]⟩, ⟨[["C"]]⟩, ⟨[["D"]]⟩]).map
          (fun r => (extract_tables_from_xml r).map (fun t => t.rows))
      = [[[["A"]], [["B"]]], [[["A"]], [["B"]]]] ∧
     (save_hwpx_with_tables_lxml [secTwoTbl "t1" "t2", secTwoTbl "t3" "t4"]
        [⟨[["A"]]⟩, ⟨[["B"]]⟩, ⟨[["C"]]⟩, ⟨[["D"]]⟩]).map
          (fun r => (extract_tables_from_xml r).map (fun t => t.rows))
      ≠ [[[["A"]], [["B"]]], [[["C"]], [["D"]]]]) := by
  exact ⟨⟨by decide, by decide⟩, ⟨by decide, by decide⟩⟩

/-- C2 (amended): the table counter restarts at zero for every section
file, in both tiers: each section is rewritten independently against the
full target list, so the Nth table OF EACH SECTION receives
`target_grids[N]`.  Concretely: whatever target entries follow entry 0,
the single table of BOTH sections receives entry 0's text in the regex
tier; and with two tables per section, both sections' tables receive
entries 0 and 1 in the lxml tier, regardless of any later entries. -/
theorem c2_per_section_restart (rest : List TableData) :
    save_hwpx_with_tables [c2Sec1, c2Sec2] (⟨[["P"]]⟩ :: rest)
      = ["<hs:sec><hp:tbl><hp:tr><hp:tc><hp:t>P</hp:t></hp:tc></hp:tr></hp:tbl></hs:sec>".data,
         "<hs:sec><hp:tbl><hp:tr><hp:tc><hp:t>P</hp:t></hp:tc></hp:tr></hp:tbl></hs:sec>".data] ∧
    (save_hwpx_with_tables_lxml [secTwoTbl "t1" "t2", secTwoTbl "t3" "t4"]
        (⟨[["A"]]⟩ :: ⟨[["B"]]⟩ :: rest)).map
          (fun r => (extract_tables_from_xml r).map (fun t => t.rows))
      = [[[["A"]], [["B"]]], [[["A"]], [["B"]]]] := by
  exact ⟨rfl, rfl⟩

/-! ### C6: expansion of a self-closing run in the constrained tier -/

theorem findSub_single_notMem {c : Char} (xs ys : List Char) (h : c ∉ xs) :
    findSub [c] (xs ++ c :: ys) = some xs.length := by
  induction xs with
  | nil => simp [findSub, chStarts]
  | cons x xs ih =>
    have hx : c ≠ x := fun hc => h (by simp [hc])
    have hxs : c ∉ xs := fun hc => h (by simp [hc])
    have hbeq : (c == x) = false := by
      simp [hx]
    have hstart : chStarts [c] (x :: (xs ++ c :: ys)) = false := by
      simp [chStarts, hbeq]
    simp only [List.cons_append, findSub, hstart, Bool.false_eq_true, if_false,
      List.append_eq]
    rw [ih hxs]
    simp

/-- C6: in the constrained tier, a cell whose content has no `<hp:t>`
element and whose first run is self-closing (`<hp:run ATTRS/>` with no `>`
inside the attribute text) is rewritten so that this run is expanded into
an open run holding exactly one `t` element whose text is the new value —
the run's attributes (`ATTRS`) and all other cell content (everything
before and after the run) are preserved byte-for-byte. -/
theorem c6_self_closing_run_expanded
    (pre attrs post v tc : List Char)
    (htc : tc = pre ++ ("<hp:run".data ++ (attrs ++ ("/>".data ++ post))))
    (hnoT : findSub "<hp:t>".data tc = none)
    (hfirst : findSub "<hp:run".data tc = some pre.length)
    (hattrs : '>' ∉ attrs) :
    modify_cell_text_regex tc v
      = pre ++ ("<hp:run".data ++ (attrs ++ ("><hp:t>".data
          ++ (v ++ ("</hp:t></hp:run>".data ++ post))))) := by
  have h1 : tc = (pre ++ "<hp:run".data) ++ (attrs ++ ('/' :: '>' :: post)) := by
    rw [htc]
    simp [List.append_assoc]
  have h2 : tc = ((pre ++ "<hp:run".data) ++ attrs) ++ ('/' :: '>' :: post) := by
    rw [htc]
    simp [List.append_assoc]
  have h3 : tc = (((pre ++ "<hp:run".data) ++ attrs) ++ ['/', '>']) ++ post := by
    rw [htc]
    simp [List.append_assoc]
  have hlenA : (pre ++ "<hp:run".data).length = pre.length + 7 := by
    simp
  have hlenB : ((pre ++ "<hp:run".data) ++ attrs).length
      = pre.length + 7 + attrs.length := by
    simp
    omega
  have hdropA : tc.drop (pre.length + 7) = attrs ++ ('/' :: '>' :: post) := by
    rw [h1, ← hlenA, List.drop_left]
  have hgt : findSub ['>'] (tc.drop (pre.length + 7)) = some (attrs.length + 1) := by
    rw [hdropA]
    have hmem : '>' ∉ attrs ++ ['/'] := by
      simp [hattrs]
    have := findSub_single_notMem (attrs ++ ['/']) post hmem
    simpa [List.append_assoc] using this
  have hslash : tc[pre.length + 7 + attrs.length]? = some '/' := by
    rw [h2, ← hlenB, List.getElem?_append_right (Nat.le_refl _)]
    simp
  have hscan : scanBackSlash tc (pre.length + 7) (pre.length + 7 + attrs.length)
      = some (pre.length + 7 + attrs.length) := by
    simp [scanBackSlash, scanBackSlashAux, hslash, Nat.le_add_right]
  have hidx : pre.length + 7 + (attrs.length + 1) - 1
      = pre.length + 7 + attrs.length := by omega
  have htest : testSelfClose tc pre.length
      = some (pre.length + 7 + attrs.length, pre.length + 7 + (attrs.length + 1)) := by
    simp only [testSelfClose, hgt, hidx, hscan]
    rw [if_neg (by omega)]
  have hscrun : findSCRunAux tc (tc.length + 1) 0
      = some (pre.length + 7 + attrs.length, pre.length + 7 + (attrs.length + 1)) := by
    simp only [findSCRunAux, List.drop_zero, hfirst, Nat.zero_add, htest]
  have htake : tc.take (pre.length + 7 + attrs.length)
      = (pre ++ "<hp:run".data) ++ attrs := by
    rw [h2, ← hlenB, List.take_left]
  have hdropP : tc.drop (pre.length + 7 + (attrs.length + 1) + 1) = post := by
    have hlenC : ((((pre ++ "<hp:run".data) ++ attrs) ++ ['/', '>'])).length
        = pre.length + 7 + (attrs.length + 1) + 1 := by
      simp
      omega
    rw [h3, ← hlenC, List.drop_left]
  have hrepl : replSelfClosingRun tc v
      = some (((pre ++ "<hp:run".data) ++ attrs) ++ (">".data ++ ("<hp:t>".data
          ++ (v ++ ("</hp:t></hp:run>".data ++ post))))) := by
    simp only [replSelfClosingRun, hscrun, htake, hdropP]
  have hnone : replFirstT tc v = none := by
    simp only [replFirstT, hnoT]
  simp only [modify_cell_text_regex, hnone, hrepl]
  simp only [List.append_assoc]
  rfl

/-- Witness for C6 at a concrete input: a cell holding one self-closing
run with an attribute, no text element. -/
theorem c6_self_closing_run_expanded_witness :
    modify_cell_text_regex "<hp:tc><hp:subList><hp:run q=\"7\"/></hp:subList></hp:tc>".data "NEW".data
      = "<hp:tc><hp:subList>".data ++ ("<hp:run".data ++ (" q=\"7\"".data
          ++ ("><hp:t>".data ++ ("NEW".data
          ++ ("</hp:t></hp:run>".data ++ "</hp:subList></hp:tc>".data))))) := by
  exact c6_self_closing_run_expanded "<hp:tc><hp:subList>".data " q=\"7\"".data
    "</hp:subList></hp:tc>".data "NEW".data _ (by decide) (by decide) (by decide)
    (by decide)

end HanParse
